import Mathlib

/-!
Verification of the wire-EDM G-code inspection/normalization tool
(`edm_iso_tester.py`): a shallow embedding of its core functions —
`detect_eol_stats`, `detect_line_endings_label`, `safe_decode`,
`analyze_text_lines`, `normalize_to_iso` and `compare_files` — together
with theorems settling the specification's testable properties.

Modelling conventions:
* A raw byte buffer is `List Nat` (each entry a byte value).
* A decoded line is `List Char`.  Files are read with the latin-1 codec,
  which is a bijection between bytes and the code points U+0000–U+00FF,
  so the normalizer is modelled at the text level (`List Char`).
* Python's character classes (`str.strip` whitespace, `re` `\s`, `\w`,
  `str.splitlines` line boundaries) are modelled exactly over the
  latin-1 range U+0000–U+00FF, the only code points a decoded file can
  contain (plus U+2028/U+2029 for line boundaries).
* Regular-expression matching in the source uses only fixed word
  patterns with `\b` boundaries, `\s+` substitution and one
  coordinate-word scan; each is rendered as an explicit scanner below.
-/

/-- Python whitespace over the latin-1 range: the characters accepted by
`str.strip()` / matched by `\s` (TAB, LF, VT, FF, CR, FS, GS, RS, US,
space, NEL, NBSP). -/
def isPySpace (c : Char) : Bool :=
  let v := c.toNat
  v == 32 || (9 ≤ v && v ≤ 13) || (28 ≤ v && v ≤ 31) || v == 0x85 || v == 0xA0

/-- Python `\w` (word character) over the latin-1 range: ASCII
alphanumerics, underscore, and the latin-1 letters/numeric signs that
`str.isalnum` accepts (ª ² ³ µ ¹ º ¼ ½ ¾ À–Ö Ø–ö ø–ÿ). -/
def isWordChar (c : Char) : Bool :=
  let v := c.toNat
  (48 ≤ v && v ≤ 57) || (65 ≤ v && v ≤ 90) || v == 95 || (97 ≤ v && v ≤ 122) ||
  v == 0xAA || v == 0xB2 || v == 0xB3 || v == 0xB5 || v == 0xB9 || v == 0xBA ||
  (0xBC ≤ v && v ≤ 0xBE) || (0xC0 ≤ v && v ≤ 0xD6) ||
  (0xD8 ≤ v && v ≤ 0xF6) || (0xF8 ≤ v && v ≤ 0xFF)

/-- Line-boundary characters of Python `str.splitlines`: LF, VT, FF, CR,
FS, GS, RS, NEL, plus LINE/PARAGRAPH SEPARATOR ("\r\n" is handled as a
single boundary by the splitter itself). -/
def isLineBreak (c : Char) : Bool :=
  let v := c.toNat
  v == 10 || v == 11 || v == 12 || v == 13 ||
  (28 ≤ v && v ≤ 30) || v == 0x85 || v == 0x2028 || v == 0x2029

/-- `str.lstrip()`: drop leading Python whitespace. -/
def lstrip (l : List Char) : List Char := l.dropWhile isPySpace

/-- `str.rstrip()`: drop trailing Python whitespace. -/
def rstrip (l : List Char) : List Char := (l.reverse.dropWhile isPySpace).reverse

/-- `str.strip()`: drop Python whitespace at both ends. -/
def pstrip (l : List Char) : List Char := rstrip (lstrip l)

/-- One squeezing pass: collapse runs of spaces to a single space. -/
def squeezeSpaces : List Char → List Char
  | [] => []
  | c :: rest =>
    if c = ' ' && rest.head? == some ' ' then squeezeSpaces rest
    else c :: squeezeSpaces rest

/-- `re.sub(r'\s+', ' ', l)`: every maximal run of whitespace becomes a
single space. -/
def collapseWS (l : List Char) : List Char :=
  squeezeSpaces (l.map fun c => if isPySpace c then ' ' else c)

/-- Worker for `splitlines`: accumulate the current line (reversed) and
split at each line boundary, treating CRLF as one boundary; a trailing
boundary produces no extra empty line. -/
def splitGo (acc : List Char) : List Char → List (List Char)
  | [] => [acc.reverse]
  | '\r' :: '\n' :: rest2 => acc.reverse :: (if rest2.isEmpty then [] else splitGo [] rest2)
  | c :: rest =>
    if isLineBreak c then
      acc.reverse :: (if rest.isEmpty then [] else splitGo [] rest)
    else splitGo (c :: acc) rest

/-- `str.splitlines()` (universal newlines; empty string gives no lines). -/
def splitlines (s : List Char) : List (List Char) :=
  if s.isEmpty then [] else splitGo [] s

/-- `\b` test against the character adjacent to a candidate match
(`none` = string edge, always a boundary). -/
def wordB : Option Char → Bool
  | none => true
  | some c => !isWordChar c

/-- Literal pattern match at the head of the input; `some rest` is the
input after the pattern. -/
def matchCode : List Char → List Char → Option (List Char)
  | [], l => some l
  | _ :: _, [] => none
  | p :: ps, c :: cs => if p = c then matchCode ps cs else none

/-- Boundary test for the input remaining after a candidate match. -/
def tailB : Option (List Char) → Bool
  | none => false
  | some r => wordB r.head?

/-- Scanner for `re.search(rf'\b{pat}\b', line)` with a literal `pat`:
`prev` is the character before the current position. -/
def wordHit (pat : List Char) : Option Char → List Char → Bool
  | prev, [] => wordB prev && tailB (matchCode pat [])
  | prev, c :: cs =>
      (wordB prev && tailB (matchCode pat (c :: cs))) || wordHit pat (some c) cs

/-- `re.search(rf'\b{pat}\b', line) is not None` for a literal `pat`. -/
def wordSearch (pat l : List Char) : Bool := wordHit pat none l

/-- `re.search(r'\bM0?2\b', line) is not None`: a whole-word `M02` or
`M2` anywhere in the line. -/
def stopSearch (l : List Char) : Bool :=
  wordSearch ['M', '0', '2'] l || wordSearch ['M', '2'] l

/-- Python `\d` over the latin-1 range: the ASCII digits `0`–`9` (the
only latin-1 characters of Unicode category Nd). -/
def isDigitB (c : Char) : Bool := 48 ≤ c.toNat && c.toNat ≤ 57

/-- `re.match(r'\s*N(\d+)', line)`: the numeric value of a leading block
number, if the line (after leading whitespace) starts with `N` and one
or more digits. -/
def blockNum (l : List Char) : Option Nat :=
  match l.dropWhile isPySpace with
  | 'N' :: rest =>
      let ds := rest.takeWhile isDigitB
      if ds.isEmpty then none
      else some (ds.foldl (fun a c => a * 10 + (c.toNat - 48)) 0)
  | _ => none

/-- Truthiness of `re.match(r'\s*N\d+', line)`. -/
def hasBlockNum (l : List Char) : Bool := (blockNum l).isSome

/-! ## Encoding / line-ending inspector (`detect_eol_stats`,
`detect_line_endings_label`, `safe_decode`, non-ASCII statistics) -/

/-- `data.count(b"\r\n")`: occurrences of the byte pair 13,10 (the pair
cannot overlap itself, so adjacent-pair counting equals Python's
non-overlapping count). -/
def countCRLF : List Nat → Nat
  | 13 :: 10 :: rest => countCRLF rest + 1
  | _ :: rest => countCRLF rest
  | [] => 0

/-- `detect_eol_stats`: (CRLF count, lone-LF count, lone-CR count). -/
def detect_eol_stats (data : List Nat) : Nat × Nat × Nat :=
  let crlf := countCRLF data
  (crlf, data.count 10 - crlf, data.count 13 - crlf)

/-- The label branch of `detect_line_endings_label`, a function of the
three counts only (Python truthiness: a count is "set" iff nonzero). -/
def labelOfCounts : Nat × Nat × Nat → String
  | (crlf, lf, cr) =>
    if crlf ≠ 0 ∧ lf = 0 ∧ cr = 0 then "CRLF"
    else if lf ≠ 0 ∧ crlf = 0 ∧ cr = 0 then "LF"
    else if cr ≠ 0 ∧ crlf = 0 ∧ lf = 0 then "CR"
    else if crlf ≠ 0 ∨ lf ≠ 0 ∨ cr ≠ 0 then "MIXED"
    else "NONE"

/-- `detect_line_endings_label`. -/
def detect_line_endings_label (data : List Nat) : String :=
  labelOfCounts (detect_eol_stats data)

/-- `safe_decode`: try `data.decode("ascii")`; on failure (some byte is
not < 128) decode with `errors="replace"`, which maps every byte ≥ 128
to U+FFFD. -/
def safe_decode (data : List Nat) : List Char :=
  if data.all (fun b => b < 128) then data.map Char.ofNat
  else data.map (fun b => if b < 128 then Char.ofNat b else '�')

/-- `[i for i, b in enumerate(data) if b > 127]`, from index `i`. -/
def naAux (i : Nat) : List Nat → List Nat
  | [] => []
  | b :: rest => if 127 < b then i :: naAux (i + 1) rest else naAux (i + 1) rest

/-- 0-based positions of the bytes above 127 (`non_ascii_positions`). -/
def non_ascii_positions (data : List Nat) : List Nat := naAux 0 data

/-- `non_ascii_count` of the analysis report. -/
def non_ascii_count (data : List Nat) : Nat := (non_ascii_positions data).length

/-- `non_ascii_sample`: the first 10 such positions. -/
def non_ascii_sample (data : List Nat) : List Nat := (non_ascii_positions data).take 10

/-! ## Line analyzer (`analyze_text_lines`) -/

/-- The `text_report` dictionary built by `analyze_text_lines`. -/
structure Report where
  total_lines : Nat
  starts_with_percent : Bool
  ends_with_M02 : Bool
  has_block_numbers : Bool
  block_numbers_monotonic : Bool
  max_line_length : Nat
  has_semicolon_comments : Bool
  stray_percent_positions : List Nat
  stop_codes : List (String × List Nat)
  precision_max_places : Nat
  precision_over_4_count : Nat
  suspect_lines : List (Nat × String)
  deriving DecidableEq, Repr

/-- Stray-percent scan over `lines[1:-1]`: `i` mirrors
`enumerate(..., start=2)` and the comprehension records `i+1` (the
source records one past the 1-based position; embedded as written). -/
def strayAux (i : Nat) : List (List Char) → List Nat
  | [] => []
  | l :: rest =>
      if pstrip l = ['%'] then (i + 1) :: strayAux (i + 1) rest
      else strayAux (i + 1) rest

/-- 1-based line positions (from `i`) whose line has a whole-word match
of `pat`. -/
def posAux (pat : List Char) (i : Nat) : List (List Char) → List Nat
  | [] => []
  | l :: rest =>
      if wordSearch pat l then i :: posAux pat (i + 1) rest
      else posAux pat (i + 1) rest

/-- The stop-code table: each of the seven fixed tokens maps to its list
of matching 1-based line positions; tokens with no match are omitted. -/
def stopTable (lines : List (List Char)) : List (String × List Nat) :=
  ["M0", "M00", "M1", "M01", "M2", "M02", "M30"].filterMap fun c =>
    let ps := posAux c.data 1 lines
    if ps.isEmpty then none else some (c, ps)

/-- One of the letters `X Y Z I J F` opening a coordinate/feed word. -/
def isCoordLetter (c : Char) : Bool :=
  c == 'X' || c == 'Y' || c == 'Z' || c == 'I' || c == 'J' || c == 'F'

/-- After a coordinate letter, parse `[\-\+]?\d+\.(\d+)`; returns the
captured fractional digits and the rest of the input. -/
def parseFrac (l : List Char) : Option (List Char × List Char) :=
  let l1 := match l with
            | c :: r => if c == '-' || c == '+' then r else l
            | [] => l
  let ds1 := l1.takeWhile isDigitB
  if ds1.isEmpty then none
  else
    match l1.drop ds1.length with
    | '.' :: r2 =>
        let ds2 := r2.takeWhile isDigitB
        if ds2.isEmpty then none else some (ds2, r2.drop ds2.length)
    | _ => none

/-- `re.findall(r'[XYZIJF][\-\+]?\d+\.(\d+)', text)`: left-to-right
non-overlapping scan collecting the captured digit runs.  The fuel is
the remaining input length, which bounds the number of steps (each step
consumes at least one character). -/
def precScanF : Nat → List Char → List (List Char)
  | 0, _ => []
  | _, [] => []
  | fuel + 1, c :: rest =>
    if isCoordLetter c then
      match parseFrac rest with
      | some (ds, rest2) => ds :: precScanF fuel rest2
      | none => precScanF fuel rest
    else precScanF fuel rest

/-- The decimal-precision capture list over the `"\n"`-joined lines. -/
def precScan (l : List Char) : List (List Char) := precScanF l.length l

/-- `re.search(r'%.*\S', line)` tail: a non-whitespace character ahead
of the cursor with no `\n` before it (`.` does not cross `\n`). -/
def pcTail : List Char → Bool
  | [] => false
  | c :: rest =>
      if !isPySpace c then true
      else if c = '\n' then false
      else pcTail rest

/-- `re.search(r'%.*\S', line) is not None`. -/
def pcScan : List Char → Bool
  | [] => false
  | c :: rest => (decide (c = '%') && pcTail rest) || pcScan rest

/-- The suspicious-content scan: per line, in check order, "line too
long", "tab character", "content after %", "M02 not at end". -/
def suspectScan (total : Nat) (i : Nat) : List (List Char) → List (Nat × String)
  | [] => []
  | l :: rest =>
      ((if 120 < l.length then [(i, "line too long")] else []) ++
       (if l.contains '\t' then [(i, "tab character")] else []) ++
       (if pcScan l && !decide (pstrip l = ['%']) then [(i, "content after %")] else []) ++
       (if stopSearch l && !decide (i = total) then [(i, "M02 not at end")] else [])) ++
      suspectScan total (i + 1) rest

/-- The monotonicity loop: `last` starts at −1; a block number ≤ the
last seen sets the flag false and stops the scan. -/
def monoScan : Int → List (List Char) → Bool
  | _, [] => true
  | last, l :: rest =>
      match blockNum l with
      | some n => if (n : Int) ≤ last then false else monoScan (n : Int) rest
      | none => monoScan last rest

/-- `analyze_text_lines`. -/
def analyze_text_lines (lines : List (List Char)) : Report where
  total_lines := lines.length
  starts_with_percent :=
    match lines with
    | [] => false
    | l :: _ => decide (pstrip l = ['%'])
  ends_with_M02 :=
    match lines.getLast? with
    | some l => stopSearch l
    | none => false
  has_block_numbers := lines.any hasBlockNum
  block_numbers_monotonic := monoScan (-1) lines
  max_line_length := lines.foldr (fun l m => max l.length m) 0
  has_semicolon_comments := lines.any fun l => l.contains ';'
  stray_percent_positions := strayAux 2 ((lines.drop 1).dropLast)
  stop_codes := stopTable lines
  precision_max_places :=
    (precScan (List.intercalate ['\n'] lines)).foldr (fun d m => max d.length m) 0
  precision_over_4_count :=
    (precScan (List.intercalate ['\n'] lines)).countP fun d => 4 < d.length
  suspect_lines := suspectScan lines.length 1 lines

/-! ## Normalizer (`normalize_to_iso`) -/

/-- The keyword arguments of `normalize_to_iso` (the spec's
`NormalizationConfig`; the spec restricts the start number and the
increment to positive integers, embedded as `Nat`). -/
structure NormCfg where
  start_n : Nat
  step : Nat
  add_percent : Bool
  ensure_M02 : Bool
  crlf : Bool
  strip_semicolon : Bool
  deriving DecidableEq, Repr

/-- The default configuration of the CLI `normalize` command. -/
def defCfg : NormCfg :=
  { start_n := 10, step := 10, add_percent := true, ensure_M02 := true,
    crlf := true, strip_semicolon := true }

/-- Decimal digits of `n` (`f"{n}"` for a natural number). -/
def natDigits (n : Nat) : List Char := Nat.toDigits 10 n

/-- Per-line preprocessing of the normalization loop: strip; skip if
empty; if configured, truncate at the first `;` and strip trailing
whitespace, skipping the line if that empties it. -/
def procLine (ss : Bool) (ln : List Char) : Option (List Char) :=
  let s := pstrip ln
  if s.isEmpty then none
  else
    let s2 := if ss && s.contains ';' then rstrip (s.takeWhile fun c => c ≠ ';') else s
    if s2.isEmpty then none else some s2

/-- The main loop of `normalize_to_iso` over the (post-header) source
lines, threading the block counter `n`.  Each emitted line is tagged
with the block number the loop assigned to it (`none` for a line that
already carried one and is emitted as-is). -/
def normBody (ss : Bool) (step : Nat) : Nat → List (List Char) →
    List (List Char × Option Nat) × Nat
  | n, [] => ([], n)
  | n, ln :: rest =>
    match procLine ss ln with
    | none => normBody ss step n rest
    | some s =>
      if hasBlockNum s then
        let r := normBody ss step n rest
        ((s, none) :: r.1, r.2)
      else
        let out := 'N' :: natDigits n ++ ' ' :: collapseWS s
        let r := normBody ss step (n + step) rest
        ((out, some n) :: r.1, r.2)

/-- Header handling: with `add_percent`, a first line that strips to `%`
is consumed (the emitted header replaces it); this is the line list the
main loop runs on. -/
def preSrc (cfg : NormCfg) (src : List (List Char)) : List (List Char) :=
  if cfg.add_percent then
    match src with
    | [] => []
    | l :: rest => if pstrip l = ['%'] then rest else src
  else src

/-- The emitted header (tagged; the `%` line carries no block number). -/
def hdrOut (cfg : NormCfg) : List (List Char × Option Nat) :=
  if cfg.add_percent then [(['%'], none)] else []

/-- The block counter's value after the main loop. -/
def normCounter (cfg : NormCfg) (src : List (List Char)) : Nat :=
  (normBody cfg.strip_semicolon cfg.step cfg.start_n (preSrc cfg src)).2

/-- `f"N{n} M02"`, the appended stop-code line. -/
def stopLine (n : Nat) : List Char := ('N' :: natDigits n) ++ [' ', 'M', '0', '2']

/-- The output line sequence of `normalize_to_iso` (tagged with the
assigned block numbers): header, main loop, then — if configured — drop
every line with a whole-word `M2`/`M02` match and append `N<counter>
M02` with the counter's current value. -/
def normalizeLines (cfg : NormCfg) (src : List (List Char)) :
    List (List Char × Option Nat) :=
  let outs := hdrOut cfg ++ (normBody cfg.strip_semicolon cfg.step cfg.start_n (preSrc cfg src)).1
  if cfg.ensure_M02 then
    outs.filter (fun p => !stopSearch p.1) ++
      [(stopLine (normCounter cfg src), some (normCounter cfg src))]
  else outs

/-- The output lines proper. -/
def normLines (cfg : NormCfg) (src : List (List Char)) : List (List Char) :=
  (normalizeLines cfg src).map Prod.fst

/-- The block numbers the normalizer itself assigned, in emission order
(output lines that did not already carry an N-number, plus the appended
stop-code line). -/
def asgNums (cfg : NormCfg) (src : List (List Char)) : List Nat :=
  (normalizeLines cfg src).filterMap Prod.snd

/-- The configured end-of-line sequence. -/
def eolStr (cfg : NormCfg) : List Char := if cfg.crlf then ['\r', '\n'] else ['\n']

/-- `sep.join(lines)`. -/
def joinEol (eol : List Char) : List (List Char) → List Char
  | [] => []
  | [l] => l
  | l :: rest => l ++ eol ++ joinEol eol rest

/-- The serialized output: lines joined with the configured end-of-line
sequence plus one trailing terminator. -/
def serializeLines (cfg : NormCfg) (ls : List (List Char)) : List Char :=
  joinEol (eolStr cfg) ls ++ eolStr cfg

/-- `normalize_to_iso` as a text transformer: split the input into
lines, normalize, serialize.  (Reading and writing use the latin-1
codec, a bijection between bytes and U+0000–U+00FF, so byte content and
text content determine each other.) -/
def normalizeText (cfg : NormCfg) (t : List Char) : List Char :=
  serializeLines cfg (normLines cfg (splitlines t))

/-! ## Comparator (`compare_files`) -/

/-- The trimming policy applied to each file independently: drop a first
line that strips to `%` (if configured) and a last line with a
whole-word `M2`/`M02` match (if configured). -/
def trimF (skipHdr skipM02 : Bool) (lines : List (List Char)) : List (List Char) :=
  let l1 :=
    if skipHdr then
      match lines with
      | [] => lines
      | l :: rest => if pstrip l = ['%'] then rest else lines
    else lines
  if skipM02 then
    match l1.getLast? with
    | some l => if stopSearch l then l1.dropLast else l1
    | none => l1
  else l1

/-- The lock-step comparison loop `for i in range(max_len)`: `fuel` is
the number of remaining iterations, `i` the 1-based line index; each
side contributes its stripped line or the `<EOF>` placeholder, compared
after whitespace collapsing. -/
def cmpGo : Nat → Nat → List (List Char) → List (List Char) →
    Option (Nat × List Char × List Char)
  | 0, _, _, _ => none
  | fuel + 1, i, la, lb =>
    let aL := match la with | [] => "<EOF>".data | x :: _ => pstrip x
    let bL := match lb with | [] => "<EOF>".data | x :: _ => pstrip x
    if collapseWS aL = collapseWS bL then cmpGo fuel (i + 1) la.tail lb.tail
    else some (i, aL, bL)

/-- The comparison of two already-trimmed line sequences (`max_len`
loop iterations). -/
def compareTrimmed (la lb : List (List Char)) : Option (Nat × List Char × List Char) :=
  cmpGo (max la.length lb.length) 1 la lb

/-- `compare_files` on decoded line sequences: `none` is
`{"first_diff_line": null}`; `some (i, a, b)` is the first divergence
with the stripped contents of the two sides. -/
def compare_files (skipHdr skipM02 : Bool) (la lb : List (List Char)) :
    Option (Nat × List Char × List Char) :=
  compareTrimmed (trimF skipHdr skipM02 la) (trimF skipHdr skipM02 lb)

/-! ## Inputs used by the claims' concrete instances -/

/-- The spec's Analyze example input. -/
def exLines : List (List Char) :=
  ["%".data, "N10 G01 X1.23456 Y2.0".data, "M02".data]

/-- Input whose middle line both receives a block number and carries a
whole-word `M2`. -/
def exGap : List (List Char) := ["A".data, "B M2".data, "C".data]

/-- The default configuration with stop-code enforcement disabled. -/
def cfgNoStop : NormCfg := { defCfg with ensure_M02 := false }

/-- The first character, if any, is not Python whitespace. -/
def headNoWS (l : List Char) : Prop := ∀ c ∈ l.head?, isPySpace c = false

/-- The last character, if any, is not Python whitespace. -/
def lastNoWS (l : List Char) : Prop := ∀ c ∈ l.getLast?, isPySpace c = false

/-- No line-boundary character occurs in the line (true of every line
`splitlines` produces and of every line the normalizer emits). -/
def lbFreeL (l : List Char) : Prop := ∀ c ∈ l, isLineBreak c = false

/-- Invariant of every non-header output line of the normalizer: it is
nonempty, stripped (no whitespace at either end), carries a block
number, has no `;` when comment stripping is on, and has no
line-boundary character. -/
def goodLine (ss : Bool) (l : List Char) : Prop :=
  l ≠ [] ∧ headNoWS l ∧ lastNoWS l ∧ hasBlockNum l = true ∧
  (ss = true → l.contains ';' = false) ∧ lbFreeL l

/-! ## Helper lemmas -/

theorem labelOfCounts_cases (c l r : Nat) :
    (labelOfCounts (c, l, r) = "CRLF" ↔ (c ≠ 0 ∧ l = 0 ∧ r = 0)) ∧
    (labelOfCounts (c, l, r) = "LF" ↔ (l ≠ 0 ∧ c = 0 ∧ r = 0)) ∧
    (labelOfCounts (c, l, r) = "CR" ↔ (r ≠ 0 ∧ c = 0 ∧ l = 0)) ∧
    (labelOfCounts (c, l, r) = "MIXED" ↔
      ((c ≠ 0 ∧ l ≠ 0) ∨ (c ≠ 0 ∧ r ≠ 0) ∨ (l ≠ 0 ∧ r ≠ 0))) ∧
    (labelOfCounts (c, l, r) = "NONE" ↔ (c = 0 ∧ l = 0 ∧ r = 0)) := by
  have h : labelOfCounts (c, l, r) =
      (if c ≠ 0 ∧ l = 0 ∧ r = 0 then "CRLF"
       else if l ≠ 0 ∧ c = 0 ∧ r = 0 then "LF"
       else if r ≠ 0 ∧ c = 0 ∧ l = 0 then "CR"
       else if c ≠ 0 ∨ l ≠ 0 ∨ r ≠ 0 then "MIXED"
       else "NONE") := rfl
  rw [h]
  split_ifs with h1 h2 h3 h4 <;>
    refine ⟨?_, ?_, ?_, ?_, ?_⟩ <;>
    simp only [String.reduceEq, false_iff, true_iff, iff_false, iff_true] <;> tauto

theorem labelOfCounts_mem (c l r : Nat) :
    labelOfCounts (c, l, r) = "CRLF" ∨ labelOfCounts (c, l, r) = "LF" ∨
    labelOfCounts (c, l, r) = "CR" ∨ labelOfCounts (c, l, r) = "MIXED" ∨
    labelOfCounts (c, l, r) = "NONE" := by
  have h : labelOfCounts (c, l, r) =
      (if c ≠ 0 ∧ l = 0 ∧ r = 0 then "CRLF"
       else if l ≠ 0 ∧ c = 0 ∧ r = 0 then "LF"
       else if r ≠ 0 ∧ c = 0 ∧ l = 0 then "CR"
       else if c ≠ 0 ∨ l ≠ 0 ∨ r ≠ 0 then "MIXED"
       else "NONE") := rfl
  rw [h]; split_ifs <;> simp

theorem toNat_ofNat_ascii (b : Nat) (h : b < 128) : (Char.ofNat b).toNat = b := by
  have hv : Nat.isValidChar b := Or.inl (by omega)
  simp [Char.ofNat, hv, Char.toNat, Char.ofNatAux, UInt32.toNat]

theorem mem_naAux {j : Nat} : ∀ (l : List Nat) (s : Nat),
    j ∈ naAux s l ↔ ∃ k, ∃ h : k < l.length, j = s + k ∧ 127 < l.get ⟨k, h⟩ := by
  intro l
  induction l with
  | nil => intro s; simp [naAux]
  | cons b rest ih =>
    intro s
    by_cases hb : 127 < b
    · simp only [naAux, if_pos hb, List.mem_cons, ih]
      constructor
      · rintro (rfl | ⟨k, h, rfl, hk⟩)
        · exact ⟨0, by simp, by simp, by simpa using hb⟩
        · exact ⟨k + 1, by simpa using Nat.succ_lt_succ h, by omega, by simpa using hk⟩
      · rintro ⟨k, h, rfl, hk⟩
        cases k with
        | zero => left; simp
        | succ k' =>
          right
          refine ⟨k', by simpa using Nat.lt_of_succ_lt_succ h, by omega, by simpa using hk⟩
    · simp only [naAux, if_neg hb, ih]
      constructor
      · rintro ⟨k, h, rfl, hk⟩
        exact ⟨k + 1, by simpa using Nat.succ_lt_succ h, by omega, by simpa using hk⟩
      · rintro ⟨k, h, rfl, hk⟩
        cases k with
        | zero => exact absurd (by simpa using hk) hb
        | succ k' =>
          refine ⟨k', by simpa using Nat.lt_of_succ_lt_succ h, by omega, by simpa using hk⟩

/-! ## The claims -/

/-- C7: for every byte buffer the line-ending label is one of CRLF, LF,
CR, MIXED, NONE; it is a function of the three style counts alone, is
MIXED iff more than one count is nonzero, NONE iff all three are zero,
and otherwise names the single nonzero style. -/
theorem C7_eol_label (data : List Nat) :
    (detect_line_endings_label data = "CRLF" ∨ detect_line_endings_label data = "LF" ∨
     detect_line_endings_label data = "CR" ∨ detect_line_endings_label data = "MIXED" ∨
     detect_line_endings_label data = "NONE")
    ∧ detect_line_endings_label data = labelOfCounts (detect_eol_stats data)
    ∧ (detect_line_endings_label data = "CRLF" ↔
        ((detect_eol_stats data).1 ≠ 0 ∧ (detect_eol_stats data).2.1 = 0 ∧
         (detect_eol_stats data).2.2 = 0))
    ∧ (detect_line_endings_label data = "LF" ↔
        ((detect_eol_stats data).2.1 ≠ 0 ∧ (detect_eol_stats data).1 = 0 ∧
         (detect_eol_stats data).2.2 = 0))
    ∧ (detect_line_endings_label data = "CR" ↔
        ((detect_eol_stats data).2.2 ≠ 0 ∧ (detect_eol_stats data).1 = 0 ∧
         (detect_eol_stats data).2.1 = 0))
    ∧ (detect_line_endings_label data = "MIXED" ↔
        (((detect_eol_stats data).1 ≠ 0 ∧ (detect_eol_stats data).2.1 ≠ 0) ∨
         ((detect_eol_stats data).1 ≠ 0 ∧ (detect_eol_stats data).2.2 ≠ 0) ∨
         ((detect_eol_stats data).2.1 ≠ 0 ∧ (detect_eol_stats data).2.2 ≠ 0)))
    ∧ (detect_line_endings_label data = "NONE" ↔
        ((detect_eol_stats data).1 = 0 ∧ (detect_eol_stats data).2.1 = 0 ∧
         (detect_eol_stats data).2.2 = 0)) := by
  refine ⟨labelOfCounts_mem _ _ _, rfl,
    (labelOfCounts_cases _ _ _).1, (labelOfCounts_cases _ _ _).2.1,
    (labelOfCounts_cases _ _ _).2.2.1, (labelOfCounts_cases _ _ _).2.2.2.1,
    (labelOfCounts_cases _ _ _).2.2.2.2⟩

/-- C2 (counterexample): on the spec's Analyze example the stop-code
table has no entry for `M2` — the pattern `\bM2\b` has no match in the
token `M02` (`M2` is not even a substring of it) — so the claimed
mapping `{"M2": [3], "M02": [3]}` is not produced. -/
theorem C2_counterexample :
    (analyze_text_lines exLines).stop_codes.lookup "M2" = none ∧
    (analyze_text_lines exLines).stop_codes ≠ [("M2", [3]), ("M02", [3])] := by
  decide

/-- C2 (amended): on input `["%", "N10 G01 X1.23456 Y2.0", "M02"]` the
analyzer reports `starts_with_percent = true`,
`ends_with_stop_code = true`, `precision_max_places = 5`,
`precision_over_4_count = 1`, and a stop-code mapping containing only
`M02 ↦ [3]` (the `M2` token pattern does not match `M02`). -/
theorem C2_analyze_example :
    (analyze_text_lines exLines).starts_with_percent = true ∧
    (analyze_text_lines exLines).ends_with_M02 = true ∧
    (analyze_text_lines exLines).precision_max_places = 5 ∧
    (analyze_text_lines exLines).precision_over_4_count = 1 ∧
    (analyze_text_lines exLines).stop_codes = [("M02", [3])] := by
  decide

/-- C9 (counterexample): on empty input the monotonicity flag — a
boolean flag of the report — is `true` (vacuously), not `false` as the
claim's "all boolean flags false" demands. -/
theorem C9_counterexample :
    (analyze_text_lines []).block_numbers_monotonic ≠ false := by
  decide

/-- C9 (amended): on empty input the analyzer reports zero lines, all
boolean flags false except `block_numbers_monotonic` (vacuously true),
empty lists and mappings, zero precision statistics and no suspicion
records. -/
theorem C9_analyze_empty :
    analyze_text_lines [] =
      { total_lines := 0, starts_with_percent := false, ends_with_M02 := false,
        has_block_numbers := false, block_numbers_monotonic := true,
        max_line_length := 0, has_semicolon_comments := false,
        stray_percent_positions := [], stop_codes := [],
        precision_max_places := 0, precision_over_4_count := 0,
        suspect_lines := [] } := by
  decide

/-- C3 (counterexample): decoding in the analysis path is lossy above
ASCII: the buffers `[128]` and `[129]` decode to the same text (each
non-ASCII byte is replaced by U+FFFD), so bytes above 127 do not
round-trip and are altered in the decoded line sequence. -/
theorem C3_counterexample :
    safe_decode [128] = safe_decode [129] ∧ ([128] : List Nat) ≠ [129] ∧
    safe_decode [128] = ['�'] := by
  decide

/-- C3 (amended): decoding in the analysis path never fails: every byte
below 128 maps to its own code point and every byte above 127 to U+FFFD
(so pure-ASCII buffers round-trip losslessly, while non-ASCII bytes are
replaced, not preserved); non-ASCII bytes are counted and their 0-based
positions collected — `non_ascii_sample` being the first 10 — from the
raw bytes. -/
theorem C3_decode_spec (data : List Nat) :
    safe_decode data = data.map (fun b => if b < 128 then Char.ofNat b else '�')
    ∧ (data.all (fun b => b < 128) = true →
        (safe_decode data).map Char.toNat = data)
    ∧ non_ascii_count data = data.countP (fun b => 127 < b)
    ∧ (∀ j, j ∈ non_ascii_positions data ↔
        ∃ h : j < data.length, 127 < data.get ⟨j, h⟩)
    ∧ non_ascii_sample data = (non_ascii_positions data).take 10 := by
  refine ⟨?_, ?_, ?_, ?_, rfl⟩
  · unfold safe_decode
    by_cases h : data.all (fun b => b < 128)
    · rw [if_pos h]
      exact List.map_congr_left fun b hb => by
        rw [if_pos (by simpa using List.all_eq_true.mp h b hb)]
    · rw [if_neg h]
  · intro h
    unfold safe_decode
    rw [if_pos h, List.map_map]
    have : ∀ b ∈ data, (Char.toNat ∘ Char.ofNat) b = id b := fun b hb =>
      toNat_ofNat_ascii b (by simpa using List.all_eq_true.mp h b hb)
    rw [List.map_congr_left this, List.map_id]
  · show (naAux 0 data).length = _
    have : ∀ (l : List Nat) (s : Nat), (naAux s l).length = l.countP (fun b => 127 < b) := by
      intro l
      induction l with
      | nil => intro s; simp [naAux]
      | cons b rest ih =>
        intro s
        by_cases hb : 127 < b <;>
          simp [naAux, hb, ih, List.countP_cons]
    exact this data 0
  · intro j
    have := mem_naAux (j := j) data 0
    simpa using this

theorem cmpGo_self : ∀ (fuel i : Nat) (l : List (List Char)), cmpGo fuel i l l = none := by
  intro fuel
  induction fuel with
  | zero => intro i l; rfl
  | succ f ih => intro i l; cases l <;> simp [cmpGo, ih]

/-- C8: comparator reflexivity — comparing a file with itself under any
policy reports no divergence. -/
theorem C8_compare_refl (skipHdr skipM02 : Bool) (lines : List (List Char)) :
    compare_files skipHdr skipM02 lines lines = none := by
  unfold compare_files compareTrimmed
  exact cmpGo_self _ _ _

theorem cmpGo_eofPad : ∀ (fuel i : Nat) (extra : List (List Char)),
    (∀ x ∈ extra, collapseWS (pstrip x) = "<EOF>".data) →
    cmpGo fuel i extra [] = none := by
  have eofFix : collapseWS ("<EOF>".data) = "<EOF>".data := by decide
  intro fuel
  induction fuel with
  | zero => intro i extra _; rfl
  | succ f ih =>
    intro i extra h
    cases extra with
    | nil => exact cmpGo_self _ _ _
    | cons x r =>
      have hx : collapseWS (pstrip x) = collapseWS ("<EOF>".data) :=
        (h x (by simp)).trans eofFix.symm
      simp only [cmpGo, hx, if_pos, List.tail_cons]
      exact ih _ _ fun y hy => h y (by simp [hy])

theorem cmpGo_padWalk : ∀ (common : List (List Char)) (fuel i : Nat)
    (extra : List (List Char)),
    (∀ x ∈ extra, collapseWS (pstrip x) = "<EOF>".data) →
    cmpGo (common.length + fuel) i (common ++ extra) common = none := by
  intro common
  induction common with
  | nil => intro fuel i extra h; simpa using cmpGo_eofPad fuel i extra h
  | cons c cr ih =>
    intro fuel i extra h
    have hl : (c :: cr).length + fuel = (cr.length + fuel) + 1 := by
      simp [List.length_cons]; omega
    rw [hl]
    simp only [List.cons_append, cmpGo, if_pos rfl, List.tail_cons]
    exact ih fuel (i + 1) extra h

/-- C10: trimmed sequences of different lengths can compare with no
divergence — when every extra line of the longer trimmed side has
stripped, whitespace-collapsed content equal to the literal `<EOF>`, it
compares equal to the placeholder used for the exhausted shorter side,
so `first_diff_line` is null. -/
theorem C10_compare_eof_padding (skipHdr skipM02 : Bool)
    (la lb common extra : List (List Char))
    (hA : trimF skipHdr skipM02 la = common ++ extra)
    (hB : trimF skipHdr skipM02 lb = common)
    (hx : ∀ x ∈ extra, collapseWS (pstrip x) = "<EOF>".data) :
    compare_files skipHdr skipM02 la lb = none := by
  unfold compare_files compareTrimmed
  rw [hA, hB]
  have hmax : max (common ++ extra).length common.length =
      common.length + extra.length := by
    rw [List.length_append]; omega
  rw [hmax]
  exact cmpGo_padWalk common extra.length 1 extra hx

/-- Witness for C10: `A = ["<EOF>"]`, `B = []` (trimmed sequences
`["<EOF>"]` and `[]`) compare with no divergence. -/
theorem C10_witness : compare_files true true ["<EOF>".data] [] = none :=
  C10_compare_eof_padding true true ["<EOF>".data] [] [] ["<EOF>".data]
    (by decide) (by decide) (by decide)

theorem monoScan_iff : ∀ (ls : List (List Char)) (last : Int),
    monoScan last ls = true ↔
      (List.Chain' (· < ·) (ls.filterMap blockNum) ∧
       ∀ n ∈ (ls.filterMap blockNum).head?, last < (n : Int)) := by
  intro ls
  induction ls with
  | nil => intro last; simp [monoScan]
  | cons l rest ih =>
    intro last
    cases h : blockNum l with
    | none =>
      rw [List.filterMap_cons_none h]
      simp only [monoScan, h]
      exact ih last
    | some n =>
      rw [List.filterMap_cons_some h]
      simp only [monoScan, h]
      by_cases hle : (n : Int) ≤ last
      · rw [if_pos hle]
        simp only [Bool.false_eq_true, false_iff, not_and]
        intro _ hhd
        have := hhd n (by simp)
        omega
      · rw [if_neg hle, ih ((n : Int))]
        rw [List.chain'_cons']
        constructor
        · rintro ⟨hch, hhd⟩
          refine ⟨⟨fun m hm => ?_, hch⟩, fun m hm => ?_⟩
          · exact_mod_cast hhd m hm
          · simp only [List.head?_cons, Option.mem_def, Option.some.injEq] at hm
            omega
        · rintro ⟨⟨hhd, hch⟩, _⟩
          exact ⟨hch, fun m hm => by exact_mod_cast hhd m hm⟩

/-- C6: the report's `block_numbers_monotonic` flag (computed by the
short-circuit scan) is true iff the block-number values carried by the
lines, in order, are strictly increasing — vacuously true when no line
carries one. -/
theorem C6_monotonic_iff (lines : List (List Char)) :
    (analyze_text_lines lines).block_numbers_monotonic = true ↔
      List.Chain' (· < ·) (lines.filterMap blockNum) := by
  show monoScan (-1) lines = true ↔ _
  rw [monoScan_iff]
  constructor
  · exact fun h => h.1
  · exact fun h => ⟨h, fun n _ => by omega⟩

theorem wordHit_append_M02 : ∀ (xs : List Char) (prev : Option Char),
    wordHit ['M', '0', '2'] prev (xs ++ [' ', 'M', '0', '2']) = true := by
  intro xs
  induction xs with
  | nil =>
    intro prev
    have h1 : wordHit ['M', '0', '2'] (some ' ') ['M', '0', '2'] = true := by decide
    simp [wordHit, tailB, matchCode, h1]
    exact ⟨by decide, by decide⟩
  | cons c cs ih =>
    intro prev
    simp [wordHit, ih]

theorem stopSearch_stopLine (n : Nat) : stopSearch (stopLine n) = true := by
  unfold stopSearch stopLine wordSearch
  rw [wordHit_append_M02 ('N' :: natDigits n) none]
  simp

/-- C4: with stop-code enforcement on, the output ends with exactly one
line `N<counter> M02` — the counter's current value, not incremented
further — and no other output line has a whole-word `M2`/`M02` match. -/
theorem C4_trailing_stop (cfg : NormCfg) (src : List (List Char))
    (h : cfg.ensure_M02 = true) :
    ∃ front,
      normalizeLines cfg src =
        front ++ [(stopLine (normCounter cfg src), some (normCounter cfg src))] ∧
      (∀ p ∈ front, stopSearch p.1 = false) ∧
      stopSearch (stopLine (normCounter cfg src)) = true := by
  refine ⟨(hdrOut cfg ++
      (normBody cfg.strip_semicolon cfg.step cfg.start_n (preSrc cfg src)).1).filter
      (fun p => !stopSearch p.1), ?_, ?_, stopSearch_stopLine _⟩
  · simp only [normalizeLines, h, if_true]
  · intro p hp
    simpa using (List.mem_filter.mp hp).2

/-- Witness for C4 at the default configuration and input `["G01"]`. -/
theorem C4_witness :
    ∃ front,
      normalizeLines defCfg [['G', '0', '1']] =
        front ++ [(stopLine (normCounter defCfg [['G', '0', '1']]),
                   some (normCounter defCfg [['G', '0', '1']]))] ∧
      (∀ p ∈ front, stopSearch p.1 = false) ∧
      stopSearch (stopLine (normCounter defCfg [['G', '0', '1']])) = true :=
  C4_trailing_stop defCfg [['G', '0', '1']] rfl

theorem normBody_inv (ss : Bool) (step : Nat) (hstep : 0 < step) :
    ∀ (ls : List (List Char)) (n : Nat),
      n ≤ (normBody ss step n ls).2 ∧
      (∀ a ∈ (normBody ss step n ls).1.filterMap Prod.snd,
        n ≤ a ∧ a + step ≤ (normBody ss step n ls).2) ∧
      List.Chain' (fun a b => b = a + step)
        ((normBody ss step n ls).1.filterMap Prod.snd) ∧
      (∀ m ∈ ((normBody ss step n ls).1.filterMap Prod.snd).head?, m = n) := by
  intro ls
  induction ls with
  | nil => intro n; simp [normBody]
  | cons ln rest ih =>
    intro n
    cases hp : procLine ss ln with
    | none => simpa only [normBody, hp] using ih n
    | some s =>
      by_cases hb : hasBlockNum s = true
      · have he : normBody ss step n (ln :: rest) =
            ((s, none) :: (normBody ss step n rest).1, (normBody ss step n rest).2) := by
          simp [normBody, hp, hb]
        rw [he]
        simpa only [List.filterMap_cons_none (show Prod.snd ((s : List Char), (none : Option Nat)) = none from rfl)]
          using ih n
      · have he : normBody ss step n (ln :: rest) =
            (('N' :: natDigits n ++ ' ' :: collapseWS s, some n) ::
              (normBody ss step (n + step) rest).1,
             (normBody ss step (n + step) rest).2) := by
          simp [normBody, hp, hb]
        rw [he]
        obtain ⟨ih1, ih2, ih3, ih4⟩ := ih (n + step)
        rw [List.filterMap_cons_some (show Prod.snd
          (('N' :: natDigits n ++ ' ' :: collapseWS s, some n)) = some n from rfl)]
        refine ⟨by omega, ?_, ?_, ?_⟩
        · intro a ha
          rcases List.mem_cons.mp ha with rfl | ha'
          · exact ⟨le_refl _, ih1⟩
          · have := ih2 a ha'; omega
        · rw [List.chain'_cons']
          exact ⟨fun m hm => (ih4 m hm).symm ▸ rfl, ih3⟩
        · intro m hm
          simp at hm
          omega

theorem normBody_kept (ss : Bool) (step : Nat) :
    ∀ (ls : List (List Char)) (n : Nat) (p : List Char × Option Nat),
      p ∈ (normBody ss step n ls).1 → p.2 = none →
      ∃ ln ∈ ls, procLine ss ln = some p.1 ∧ hasBlockNum p.1 = true := by
  intro ls
  induction ls with
  | nil => intro n p hp; simp [normBody] at hp
  | cons ln rest ih =>
    intro n p hp hnone
    cases hpl : procLine ss ln with
    | none =>
      rw [show normBody ss step n (ln :: rest) = normBody ss step n rest by
        simp [normBody, hpl]] at hp
      obtain ⟨l', hl', h1, h2⟩ := ih n p hp hnone
      exact ⟨l', List.mem_cons_of_mem _ hl', h1, h2⟩
    | some s =>
      by_cases hb : hasBlockNum s = true
      · rw [show normBody ss step n (ln :: rest) =
            ((s, none) :: (normBody ss step n rest).1, (normBody ss step n rest).2) by
          simp [normBody, hpl, hb]] at hp
        rcases List.mem_cons.mp hp with rfl | hp'
        · exact ⟨ln, List.mem_cons_self _ _, hpl, hb⟩
        · obtain ⟨l', hl', h1, h2⟩ := ih n p hp' hnone
          exact ⟨l', List.mem_cons_of_mem _ hl', h1, h2⟩
      · rw [show normBody ss step n (ln :: rest) =
            (('N' :: natDigits n ++ ' ' :: collapseWS s, some n) ::
              (normBody ss step (n + step) rest).1,
             (normBody ss step (n + step) rest).2) by
          simp [normBody, hpl, hb]] at hp
        rcases List.mem_cons.mp hp with rfl | hp'
        · simp at hnone
        · obtain ⟨l', hl', h1, h2⟩ := ih (n + step) p hp' hnone
          exact ⟨l', List.mem_cons_of_mem _ hl', h1, h2⟩

theorem preSrc_subset (cfg : NormCfg) (src : List (List Char)) :
    ∀ l ∈ preSrc cfg src, l ∈ src := by
  intro l hl
  by_cases ha : cfg.add_percent = true
  · cases src with
    | nil => simp [preSrc, ha] at hl
    | cons x rest =>
      by_cases hx : pstrip x = ['%']
      · rw [show preSrc cfg (x :: rest) = rest by simp [preSrc, ha, hx]] at hl
        exact List.mem_cons_of_mem _ hl
      · rwa [show preSrc cfg (x :: rest) = x :: rest by simp [preSrc, ha, hx]] at hl
  · rwa [show preSrc cfg src = src by simp [preSrc, ha]] at hl

/-- C5 (counterexample): on `["A", "B M2", "C"]` with the default
configuration (increment 10), the normalizer assigns `N10`, `N20`,
`N30` but stop-code enforcement removes the `N20` line, so the assigned
numbers on output lines are `[10, 30, 40]` — not consecutive steps of
the increment. -/
theorem C5_counterexample :
    asgNums defCfg exGap = [10, 30, 40] ∧
    ¬ List.Chain' (fun a b => b = a + defCfg.step) (asgNums defCfg exGap) := by
  refine ⟨by decide, fun h => ?_⟩
  rw [show asgNums defCfg exGap = [10, 30, 40] from by decide,
    List.chain'_cons] at h
  exact absurd h.1 (by decide)

/-- C5 (amended): with a positive increment the block numbers the
normalizer assigns are strictly increasing in emission order; they
advance by exactly the increment whenever stop-code enforcement is off
(enforcement can delete an assigned line, leaving a larger gap); and
every output line the loop did not number is either the `%` header or a
source line emitted as preprocessed, already carrying a block number. -/
theorem C5_assigned_increase (cfg : NormCfg) (src : List (List Char))
    (hstep : 0 < cfg.step) :
    List.Chain' (· < ·) (asgNums cfg src) ∧
    (cfg.ensure_M02 = false →
      List.Chain' (fun a b => b = a + cfg.step) (asgNums cfg src)) ∧
    (∀ p ∈ normalizeLines cfg src, p.2 = none →
      p.1 = ['%'] ∨ ∃ ln ∈ src, procLine cfg.strip_semicolon ln = some p.1 ∧
        hasBlockNum p.1 = true) := by
  obtain ⟨inv1, inv2, inv3, _⟩ :=
    normBody_inv cfg.strip_semicolon cfg.step hstep (preSrc cfg src) cfg.start_n
  have hA : (hdrOut cfg ++
      (normBody cfg.strip_semicolon cfg.step cfg.start_n (preSrc cfg src)).1).filterMap
        Prod.snd =
      (normBody cfg.strip_semicolon cfg.step cfg.start_n (preSrc cfg src)).1.filterMap
        Prod.snd := by
    rw [List.filterMap_append]
    have hh : (hdrOut cfg).filterMap Prod.snd = [] := by
      unfold hdrOut; split_ifs <;> simp
    rw [hh, List.nil_append]
  have hpair : List.Pairwise (· < ·)
      ((normBody cfg.strip_semicolon cfg.step cfg.start_n (preSrc cfg src)).1.filterMap
        Prod.snd) := by
    rw [← List.chain'_iff_pairwise]
    exact inv3.imp fun a b hab => by omega
  by_cases he : cfg.ensure_M02 = true
  · have hnl : normalizeLines cfg src =
        (hdrOut cfg ++
          (normBody cfg.strip_semicolon cfg.step cfg.start_n (preSrc cfg src)).1).filter
          (fun p => !stopSearch p.1) ++
        [(stopLine (normCounter cfg src), some (normCounter cfg src))] := by
      simp only [normalizeLines, he, if_true]
    have hsubl : ((hdrOut cfg ++
        (normBody cfg.strip_semicolon cfg.step cfg.start_n (preSrc cfg src)).1).filter
          (fun p => !stopSearch p.1)).filterMap Prod.snd |>.Sublist
        ((normBody cfg.strip_semicolon cfg.step cfg.start_n (preSrc cfg src)).1.filterMap
          Prod.snd) := by
      rw [← hA]
      exact (List.filter_sublist _).filterMap _
    have hbound : ∀ a ∈ ((hdrOut cfg ++
        (normBody cfg.strip_semicolon cfg.step cfg.start_n (preSrc cfg src)).1).filter
          (fun p => !stopSearch p.1)).filterMap Prod.snd, a < normCounter cfg src := by
      intro a ha
      have := inv2 a (hsubl.subset ha)
      have hcnt : normCounter cfg src =
          (normBody cfg.strip_semicolon cfg.step cfg.start_n (preSrc cfg src)).2 := rfl
      omega
    refine ⟨?_, fun hc => absurd he (by rw [hc]; simp), ?_⟩
    · unfold asgNums
      rw [hnl, List.filterMap_append]
      have hstopnum : ([(stopLine (normCounter cfg src),
          some (normCounter cfg src))].filterMap Prod.snd) = [normCounter cfg src] := by
        simp
      rw [hstopnum, List.chain'_iff_pairwise, List.pairwise_append]
      refine ⟨hpair.sublist hsubl, by simp, ?_⟩
      intro a ha b hb
      rw [List.mem_singleton] at hb
      subst hb
      exact hbound a ha
    · intro p hp hnone
      rw [hnl] at hp
      rcases List.mem_append.mp hp with hp' | hp'
      · have hmem := List.mem_of_mem_filter hp'
        rcases List.mem_append.mp hmem with hh | hb
        · left
          unfold hdrOut at hh
          split_ifs at hh with hap
          · rw [List.mem_singleton] at hh
            rw [hh]
          · simp at hh
        · obtain ⟨ln, hln, h1, h2⟩ :=
            normBody_kept cfg.strip_semicolon cfg.step (preSrc cfg src) cfg.start_n p hb hnone
          exact Or.inr ⟨ln, preSrc_subset cfg src ln hln, h1, h2⟩
      · rw [List.mem_singleton] at hp'
        rw [hp'] at hnone
        simp at hnone
  · have he' : cfg.ensure_M02 = false := by
      cases hq : cfg.ensure_M02
      · rfl
      · exact absurd hq he
    have hnl : normalizeLines cfg src =
        hdrOut cfg ++
          (normBody cfg.strip_semicolon cfg.step cfg.start_n (preSrc cfg src)).1 := by
      simp only [normalizeLines, he', Bool.false_eq_true, if_false]
    refine ⟨?_, fun _ => ?_, ?_⟩
    · unfold asgNums
      rw [hnl, hA, List.chain'_iff_pairwise]
      exact hpair
    · unfold asgNums
      rw [hnl, hA]
      exact inv3
    · intro p hp hnone
      rw [hnl] at hp
      rcases List.mem_append.mp hp with hh | hb
      · left
        unfold hdrOut at hh
        split_ifs at hh with hap
        · rw [List.mem_singleton] at hh
          rw [hh]
        · simp at hh
      · obtain ⟨ln, hln, h1, h2⟩ :=
          normBody_kept cfg.strip_semicolon cfg.step (preSrc cfg src) cfg.start_n p hb hnone
        exact Or.inr ⟨ln, preSrc_subset cfg src ln hln, h1, h2⟩

/-- Witness for C5 at the default configuration and the gap input. -/
theorem C5_witness :
    List.Chain' (· < ·) (asgNums defCfg exGap) ∧
    (defCfg.ensure_M02 = false →
      List.Chain' (fun a b => b = a + defCfg.step) (asgNums defCfg exGap)) ∧
    (∀ p ∈ normalizeLines defCfg exGap, p.2 = none →
      p.1 = ['%'] ∨ ∃ ln ∈ exGap, procLine defCfg.strip_semicolon ln = some p.1 ∧
        hasBlockNum p.1 = true) :=
  C5_assigned_increase defCfg exGap (by decide)

theorem head?_dropWhile_not (p : Char → Bool) (l : List Char) :
    ∀ c ∈ (l.dropWhile p).head?, p c = false := by
  induction l with
  | nil => simp
  | cons a t ih =>
    by_cases hp : p a
    · simpa [List.dropWhile_cons, hp] using ih
    · simp [List.dropWhile_cons, hp]

theorem dropWhile_eq_self_head (p : Char → Bool) (l : List Char)
    (h : ∀ c ∈ l.head?, p c = false) : l.dropWhile p = l := by
  cases l with
  | nil => rfl
  | cons a t =>
    rw [List.dropWhile_cons, if_neg]
    simp [h a (by simp)]

theorem lstrip_headNoWS (l : List Char) : headNoWS (lstrip l) :=
  head?_dropWhile_not isPySpace l

theorem rstrip_lastNoWS (l : List Char) : lastNoWS (rstrip l) := by
  intro c hc
  rw [rstrip, List.getLast?_reverse] at hc
  exact head?_dropWhile_not isPySpace l.reverse c hc

theorem rstrip_decomp (l : List Char) : ∃ t, l = rstrip l ++ t := by
  refine ⟨(l.reverse.takeWhile isPySpace).reverse, ?_⟩
  conv_lhs => rw [← List.reverse_reverse l,
    ← List.takeWhile_append_dropWhile isPySpace l.reverse]
  rw [List.reverse_append]
  rfl

theorem rstrip_headNoWS (l : List Char) (h : headNoWS l) : headNoWS (rstrip l) := by
  obtain ⟨t, ht⟩ := rstrip_decomp l
  intro c hc
  by_cases hr : rstrip l = []
  · rw [hr] at hc; simp at hc
  · exact h c (by rw [ht, List.head?_append_of_ne_nil _ hr]; exact hc)

theorem pstrip_headNoWS (l : List Char) : headNoWS (pstrip l) :=
  rstrip_headNoWS _ (lstrip_headNoWS l)

theorem pstrip_lastNoWS (l : List Char) : lastNoWS (pstrip l) :=
  rstrip_lastNoWS _

theorem lstrip_eq_self {l : List Char} (h : headNoWS l) : lstrip l = l :=
  dropWhile_eq_self_head isPySpace l h

theorem rstrip_eq_self {l : List Char} (h : lastNoWS l) : rstrip l = l := by
  rw [rstrip, dropWhile_eq_self_head isPySpace l.reverse
    (fun c hc => h c (by rwa [List.head?_reverse] at hc)), List.reverse_reverse]

theorem pstrip_eq_self {l : List Char} (h1 : headNoWS l) (h2 : lastNoWS l) :
    pstrip l = l := by
  rw [pstrip, lstrip_eq_self h1, rstrip_eq_self h2]

theorem mem_rstrip {c : Char} {l : List Char} (h : c ∈ rstrip l) : c ∈ l := by
  rw [rstrip, List.mem_reverse] at h
  exact List.mem_reverse.mp ((List.dropWhile_sublist _).subset h)

theorem mem_lstrip {c : Char} {l : List Char} (h : c ∈ lstrip l) : c ∈ l :=
  (List.dropWhile_sublist _).subset h

theorem mem_pstrip {c : Char} {l : List Char} (h : c ∈ pstrip l) : c ∈ l :=
  mem_lstrip (mem_rstrip h)

theorem headNoWS_takeWhile (p : Char → Bool) (l : List Char) (h : headNoWS l) :
    headNoWS (l.takeWhile p) := by
  cases l with
  | nil => exact h
  | cons a t =>
    intro c hc
    rw [List.takeWhile_cons] at hc
    by_cases hp : p a
    · rw [if_pos hp] at hc
      simp only [List.head?_cons, Option.mem_def, Option.some.injEq] at hc
      exact hc ▸ h a (by simp)
    · rw [if_neg hp] at hc; simp at hc

theorem squeeze_ne_nil : ∀ {l : List Char}, l ≠ [] → squeezeSpaces l ≠ [] := by
  intro l
  induction l with
  | nil => intro h; exact absurd rfl h
  | cons a t ih =>
    intro _
    by_cases hc : (a = ' ' && t.head? == some ' ') = true
    · rw [show squeezeSpaces (a :: t) = squeezeSpaces t by rw [squeezeSpaces, if_pos hc]]
      have ht : t ≠ [] := by
        intro he
        rw [he] at hc
        simp at hc
      exact ih ht
    · rw [show squeezeSpaces (a :: t) = a :: squeezeSpaces t by
        rw [squeezeSpaces, if_neg hc]]
      simp

theorem mem_squeeze {c : Char} : ∀ {l : List Char}, c ∈ squeezeSpaces l → c ∈ l := by
  intro l
  induction l with
  | nil => intro h; simp [squeezeSpaces] at h
  | cons a t ih =>
    intro h
    by_cases hc : (a = ' ' && t.head? == some ' ') = true
    · rw [squeezeSpaces, if_pos hc] at h
      exact List.mem_cons_of_mem _ (ih h)
    · rw [squeezeSpaces, if_neg hc] at h
      rcases List.mem_cons.mp h with rfl | h'
      · exact List.mem_cons_self _ _
      · exact List.mem_cons_of_mem _ (ih h')

theorem squeeze_getLast : ∀ (l : List Char) (c : Char),
    l.getLast? = some c → c ≠ ' ' → (squeezeSpaces l).getLast? = some c := by
  intro l
  induction l with
  | nil => intro c h; simp at h
  | cons a t ih =>
    intro c h hc
    cases t with
    | nil =>
      simp only [List.getLast?_singleton, Option.some.injEq] at h
      rw [show squeezeSpaces [a] = [a] from by rw [squeezeSpaces, if_neg (by simp)]; rfl,
        List.getLast?_singleton, h]
    | cons b r =>
      rw [List.getLast?_cons_cons] at h
      by_cases hcon : (a = ' ' && (b :: r).head? == some ' ') = true
      · rw [squeezeSpaces, if_pos hcon]
        exact ih c h hc
      · rw [squeezeSpaces, if_neg hcon]
        have hne : squeezeSpaces (b :: r) ≠ [] := squeeze_ne_nil (by simp)
        cases hq : squeezeSpaces (b :: r) with
        | nil => exact absurd hq hne
        | cons x xs =>
          rw [List.getLast?_cons_cons]
          rw [← hq]
          exact ih c h hc

theorem collapse_ne_nil {l : List Char} (h : l ≠ []) : collapseWS l ≠ [] := by
  unfold collapseWS
  exact squeeze_ne_nil (by simpa using h)

theorem collapse_lastNoWS {l : List Char} (h : lastNoWS l) (hne : l ≠ []) :
    lastNoWS (collapseWS l) := by
  intro c hc
  obtain ⟨d, hd⟩ : ∃ d, l.getLast? = some d := by
    cases hq : l.getLast? with
    | none => exact absurd (List.getLast?_eq_none_iff.mp hq) hne
    | some d => exact ⟨d, rfl⟩
  have hdw : isPySpace d = false := h d hd
  have hmap : ((l.map fun x => if isPySpace x then ' ' else x).getLast?) = some d := by
    rw [List.getLast?_map, hd]
    simp [hdw]
  have hds : d ≠ ' ' := by
    intro he
    rw [he] at hdw
    exact absurd hdw (by decide)
  have := squeeze_getLast _ d hmap hds
  rw [collapseWS] at hc
  rw [this] at hc
  simp only [Option.mem_def, Option.some.injEq] at hc
  rw [← hc]
  exact hdw

theorem mem_collapse {c : Char} {l : List Char} (h : c ∈ collapseWS l) :
    c = ' ' ∨ c ∈ l := by
  rw [collapseWS] at h
  have := mem_squeeze h
  obtain ⟨b, hb, hfb⟩ := List.mem_map.mp this
  by_cases hw : isPySpace b
  · left; rw [← hfb]; simp [hw]
  · right; rw [← hfb]; simpa [hw] using hb

theorem toDigitsCore_suffix : ∀ (fuel n : Nat) (ds : List Char),
    ∃ pre, Nat.toDigitsCore 10 fuel n ds = pre ++ ds ∧
      ∀ c ∈ pre, isDigitB c = true := by
  intro fuel
  induction fuel with
  | zero => intro n ds; exact ⟨[], rfl, by simp⟩
  | succ f ih =>
    intro n ds
    have hd : isDigitB (Nat.digitChar (n % 10)) = true := by
      have h10 : n % 10 < 10 := Nat.mod_lt _ (by omega)
      have hk : ∀ k, k < 10 → isDigitB (Nat.digitChar k) = true := by decide
      exact hk _ h10
    by_cases hz : n / 10 = 0
    · refine ⟨[Nat.digitChar (n % 10)], ?_, by simpa using hd⟩
      simp [Nat.toDigitsCore, hz]
    · obtain ⟨pre, hpre, hdig⟩ := ih (n / 10) (Nat.digitChar (n % 10) :: ds)
      refine ⟨pre ++ [Nat.digitChar (n % 10)], ?_, ?_⟩
      · simp only [Nat.toDigitsCore, hz, if_false]
        rw [hpre]
        simp
      · intro c hc
        rcases List.mem_append.mp hc with h' | h'
        · exact hdig c h'
        · rw [List.mem_singleton] at h'
          rw [h']
          exact hd

theorem toDigitsCore_ne : ∀ (fuel n : Nat) (ds : List Char), fuel ≠ 0 →
    Nat.toDigitsCore 10 fuel n ds ≠ [] := by
  intro fuel n ds hf
  cases fuel with
  | zero => exact absurd rfl hf
  | succ f =>
    by_cases hz : n / 10 = 0
    · simp [Nat.toDigitsCore, hz]
    · simp only [Nat.toDigitsCore, hz, if_false]
      obtain ⟨pre, hpre, _⟩ := toDigitsCore_suffix f (n / 10) (Nat.digitChar (n % 10) :: ds)
      rw [hpre]
      simp

theorem natDigits_ne_nil (n : Nat) : natDigits n ≠ [] :=
  toDigitsCore_ne (n + 1) n [] (by omega)

theorem natDigits_digits (n : Nat) : ∀ c ∈ natDigits n, isDigitB c = true := by
  intro c hc
  obtain ⟨pre, hpre, hdig⟩ := toDigitsCore_suffix (n + 1) n []
  rw [show natDigits n = pre ++ [] from hpre, List.append_nil] at hc
  exact hdig c hc

theorem digit_not_ws {c : Char} (h : isDigitB c = true) : isPySpace c = false := by
  simp only [isDigitB, Bool.and_eq_true, decide_eq_true_eq] at h
  simp only [isPySpace, Bool.or_eq_false_iff, Bool.and_eq_false_iff, beq_eq_false_iff_ne,
    ne_eq, decide_eq_false_iff_not, not_le]
  omega

theorem digit_not_lb {c : Char} (h : isDigitB c = true) : isLineBreak c = false := by
  simp only [isDigitB, Bool.and_eq_true, decide_eq_true_eq] at h
  simp only [isLineBreak, Bool.or_eq_false_iff, Bool.and_eq_false_iff, beq_eq_false_iff_ne,
    ne_eq, decide_eq_false_iff_not, not_le]
  omega

theorem digit_ne_semi {c : Char} (h : isDigitB c = true) : c ≠ ';' := by
  intro he
  rw [he] at h
  exact absurd h (by decide)

theorem hasBlockNum_assigned (n : Nat) (s : List Char) :
    hasBlockNum ('N' :: natDigits n ++ ' ' :: collapseWS s) = true := by
  cases hnd : natDigits n with
  | nil => exact absurd hnd (natDigits_ne_nil n)
  | cons d t =>
    have hd : isDigitB d = true := natDigits_digits n d (by rw [hnd]; simp)
    have hN : isPySpace 'N' = false := by decide
    simp [hasBlockNum, blockNum, hnd, List.dropWhile_cons, hN, List.takeWhile_cons, hd]

theorem splitGo_chr (acc : List Char) (c : Char) (rest : List Char)
    (h : isLineBreak c = false) :
    splitGo acc (c :: rest) = splitGo (c :: acc) rest := by
  have hc : c ≠ '\r' := fun e => by subst e; exact absurd h (by decide)
  cases rest with
  | nil => simp [splitGo, h]
  | cons d r =>
    by_cases hd : d = '\n'
    · subst hd; simp [splitGo, h, hc]
    · simp [splitGo, h, hd]

theorem splitGo_lf (acc rest : List Char) :
    splitGo acc ('\n' :: rest) =
      acc.reverse :: (if rest.isEmpty then [] else splitGo [] rest) := by
  cases rest with
  | nil => rfl
  | cons d r =>
    rw [splitGo]
    · rw [if_pos (by decide : isLineBreak '\n' = true)]
    · intro rest2 h _
      exact absurd h (by decide)

theorem splitGo_chars : ∀ (l acc rest : List Char), lbFreeL l →
    splitGo acc (l ++ rest) = splitGo (l.reverse ++ acc) rest := by
  intro l
  induction l with
  | nil => intro acc rest _; simp
  | cons c t ih =>
    intro acc rest hl
    rw [List.cons_append, splitGo_chr _ _ _ (hl c (by simp))]
    rw [ih (c :: acc) rest fun x hx => hl x (by simp [hx])]
    simp

theorem splitGo_lbFree : ∀ (acc l : List Char),
    (∀ c ∈ acc, isLineBreak c = false) →
    ∀ x ∈ splitGo acc l, lbFreeL x := by
  intro acc l
  induction acc, l using splitGo.induct with
  | case1 acc =>
    intro hacc x hx c hc
    simp only [splitGo, List.mem_singleton] at hx
    subst hx
    exact hacc c (by simpa using hc)
  | case2 acc rest2 ih =>
    intro hacc x hx c hc
    rw [show splitGo acc ('\r' :: '\n' :: rest2) =
        acc.reverse :: (if rest2.isEmpty then [] else splitGo [] rest2) from rfl] at hx
    rcases List.mem_cons.mp hx with rfl | hx'
    · exact hacc c (by simpa using hc)
    · by_cases he : rest2.isEmpty
      · rw [if_pos he] at hx'; simp at hx'
      · rw [if_neg he] at hx'
        exact ih (by simp) x hx' c hc
  | case3 acc cc rest hne hlb ih =>
    intro hacc x hx c hc
    rw [show splitGo acc (cc :: rest) =
        acc.reverse :: (if rest.isEmpty then [] else splitGo [] rest) from by
      rw [splitGo]
      · rw [if_pos hlb]
      · exact hne] at hx
    rcases List.mem_cons.mp hx with rfl | hx'
    · exact hacc c (by simpa using hc)
    · by_cases he : rest.isEmpty
      · rw [if_pos he] at hx'; simp at hx'
      · rw [if_neg he] at hx'
        exact ih (by simp) x hx' c hc
  | case4 acc cc rest hne hlb ih =>
    intro hacc x hx c hc
    rw [show splitGo acc (cc :: rest) = splitGo (cc :: acc) rest from by
      rw [splitGo]
      · rw [if_neg hlb]
      · exact hne] at hx
    refine ih ?_ x hx c hc
    intro d hd
    rcases List.mem_cons.mp hd with rfl | hd'
    · simpa using hlb
    · exact hacc d hd'

theorem splitlines_lbFree (t : List Char) : ∀ x ∈ splitlines t, lbFreeL x := by
  unfold splitlines
  by_cases he : t.isEmpty
  · rw [if_pos he]; simp
  · rw [if_neg he]
    exact splitGo_lbFree [] t (by simp)

theorem splitlines_join (eol : List Char) (he : eol = ['\r', '\n'] ∨ eol = ['\n']) :
    ∀ ls : List (List Char), ls ≠ [] → (∀ l ∈ ls, lbFreeL l) →
      splitlines (joinEol eol ls ++ eol) = ls := by
  have heol : ∀ (acc rest : List Char), splitGo acc (eol ++ rest) =
      acc.reverse :: (if rest.isEmpty then [] else splitGo [] rest) := by
    rcases he with rfl | rfl
    · intro acc rest; rfl
    · exact splitGo_lf
  have hene : eol ≠ [] := by rcases he with rfl | rfl <;> simp
  intro ls
  induction ls with
  | nil => intro h; exact absurd rfl h
  | cons a tl ih =>
    intro _ hfree
    cases tl with
    | nil =>
      show splitlines (a ++ eol) = [a]
      have hne : a ++ eol ≠ [] := by
        intro h
        exact hene (List.append_eq_nil.mp h).2
      rw [splitlines, if_neg (by simpa using hne)]
      rw [show a ++ eol = a ++ (eol ++ []) by simp]
      rw [splitGo_chars a [] (eol ++ []) (hfree a (by simp))]
      rw [heol (a.reverse ++ []) []]
      simp
    | cons b tl2 =>
      show splitlines ((a ++ eol ++ joinEol eol (b :: tl2)) ++ eol) = a :: b :: tl2
      have hJne : joinEol eol (b :: tl2) ++ eol ≠ [] := by
        intro h
        exact hene (List.append_eq_nil.mp h).2
      have hne : (a ++ eol ++ joinEol eol (b :: tl2)) ++ eol ≠ [] := by
        intro h
        exact hene (List.append_eq_nil.mp h).2
      rw [splitlines, if_neg (by simpa using hne)]
      rw [show (a ++ eol ++ joinEol eol (b :: tl2)) ++ eol =
          a ++ (eol ++ (joinEol eol (b :: tl2) ++ eol)) by simp]
      rw [splitGo_chars a [] _ (hfree a (by simp))]
      rw [List.append_nil, heol a.reverse _]
      rw [if_neg (by simpa using hJne)]
      have := ih (by simp) (fun l hl => hfree l (by simp [hl]))
      rw [splitlines, if_neg (by simpa using hJne)] at this
      rw [this]
      simp

theorem procLine_spec {ss : Bool} {ln s : List Char} (h : procLine ss ln = some s) :
    s ≠ [] ∧ headNoWS s ∧ lastNoWS s ∧ (ss = true → s.contains ';' = false) ∧
    ∀ c ∈ s, c ∈ ln := by
  unfold procLine at h
  by_cases h0 : (pstrip ln).isEmpty
  · rw [if_pos h0] at h; exact absurd h (by simp)
  · rw [if_neg h0] at h
    by_cases hbr : (ss && (pstrip ln).contains ';') = true
    · rw [if_pos hbr] at h
      by_cases h2 : (rstrip ((pstrip ln).takeWhile fun c => c ≠ ';')).isEmpty
      · rw [if_pos h2] at h; exact absurd h (by simp)
      · rw [if_neg h2] at h
        have hs : s = rstrip ((pstrip ln).takeWhile fun c => c ≠ ';') :=
          (Option.some.injEq _ _ ▸ h).symm
        subst hs
        refine ⟨by simpa using h2, rstrip_headNoWS _
          (headNoWS_takeWhile _ _ (pstrip_headNoWS ln)), rstrip_lastNoWS _, ?_, ?_⟩
        · intro _
          have hnotin : (';' : Char) ∉ rstrip ((pstrip ln).takeWhile fun c => c ≠ ';') := by
            intro hm
            have := List.mem_takeWhile_imp (mem_rstrip hm)
            simp at this
          simpa using hnotin
        · intro c hc
          exact mem_pstrip ((List.takeWhile_sublist _).subset (mem_rstrip hc))
    · rw [if_neg hbr] at h
      rw [if_neg h0] at h
      have hs : s = pstrip ln := (Option.some.injEq _ _ ▸ h).symm
      subst hs
      refine ⟨by simpa using h0, pstrip_headNoWS ln, pstrip_lastNoWS ln, ?_,
        fun c hc => mem_pstrip hc⟩
      intro hss
      rw [hss] at hbr
      simpa using hbr

theorem normBody_good (ss : Bool) (step : Nat) :
    ∀ (ls : List (List Char)) (n : Nat), (∀ l ∈ ls, lbFreeL l) →
      ∀ p ∈ (normBody ss step n ls).1, goodLine ss p.1 := by
  intro ls
  induction ls with
  | nil => intro n _ p hp; simp [normBody] at hp
  | cons ln rest ih =>
    intro n hfree p hp
    cases hpl : procLine ss ln with
    | none =>
      rw [show normBody ss step n (ln :: rest) = normBody ss step n rest from by
        simp [normBody, hpl]] at hp
      exact ih n (fun l hl => hfree l (by simp [hl])) p hp
    | some s =>
      obtain ⟨hne, hh, hl, hsemi, hmem⟩ := procLine_spec hpl
      have hlb : lbFreeL s := fun c hc => hfree ln (by simp) c (hmem c hc)
      by_cases hb : hasBlockNum s = true
      · rw [show normBody ss step n (ln :: rest) =
            ((s, none) :: (normBody ss step n rest).1, (normBody ss step n rest).2) from by
          simp [normBody, hpl, hb]] at hp
        rcases List.mem_cons.mp hp with rfl | hp'
        · exact ⟨hne, hh, hl, hb, hsemi, hlb⟩
        · exact ih n (fun l hl => hfree l (by simp [hl])) p hp'
      · rw [show normBody ss step n (ln :: rest) =
            (('N' :: natDigits n ++ ' ' :: collapseWS s, some n) ::
              (normBody ss step (n + step) rest).1,
             (normBody ss step (n + step) rest).2) from by
          simp [normBody, hpl, hb]] at hp
        rcases List.mem_cons.mp hp with rfl | hp'
        · have hcne : collapseWS s ≠ [] := collapse_ne_nil hne
          refine ⟨by simp, ?_, ?_, hasBlockNum_assigned n s, ?_, ?_⟩
          · intro c hc
            rw [List.head?_append_of_ne_nil ('N' :: natDigits n) (by simp)] at hc
            simp only [List.head?_cons, Option.mem_def, Option.some.injEq] at hc
            rw [← hc]
            decide
          · intro c hc
            rw [List.getLast?_append] at hc
            have hgl : (' ' :: collapseWS s).getLast? = (collapseWS s).getLast? := by
              cases hq : collapseWS s with
              | nil => exact absurd hq hcne
              | cons x xs => rw [List.getLast?_cons_cons]
            rw [hgl] at hc
            cases hq : (collapseWS s).getLast? with
            | none =>
              exact absurd (List.getLast?_eq_none_iff.mp hq) hcne
            | some d =>
              rw [hq, Option.or_some] at hc
              simp only [Option.mem_def, Option.some.injEq] at hc
              rw [← hc]
              exact collapse_lastNoWS hl hne d hq
          · intro hss
            have hnotin : (';' : Char) ∉ 'N' :: natDigits n ++ ' ' :: collapseWS s := by
              intro hmem'
              rcases List.mem_append.mp hmem' with h1 | h2
              · rcases List.mem_cons.mp h1 with h1' | h1''
                · exact absurd h1' (by decide)
                · exact digit_ne_semi (natDigits_digits n _ h1'') rfl
              · rcases List.mem_cons.mp h2 with h2' | h2''
                · exact absurd h2' (by decide)
                · rcases mem_collapse h2'' with he | hs'
                  · exact absurd he (by decide)
                  · exact absurd hs' (by simpa using hsemi hss)
            simpa using hnotin
          · intro c hc
            rcases List.mem_append.mp hc with h1 | h2
            · rcases List.mem_cons.mp h1 with rfl | h1''
              · decide
              · exact digit_not_lb (natDigits_digits n _ h1'')
            · rcases List.mem_cons.mp h2 with rfl | h2''
              · decide
              · rcases mem_collapse h2'' with rfl | hs'
                · decide
                · exact hlb c hs'
        · exact ih (n + step) (fun l hl => hfree l (by simp [hl])) p hp'

theorem procLine_good {ss : Bool} {l : List Char} (h : goodLine ss l) :
    procLine ss l = some l := by
  obtain ⟨hne, hh, hl, _, hsemi, _⟩ := h
  have hemp : l.isEmpty = false := by simpa using hne
  have hcond : (ss && l.contains ';') = false := by
    by_cases hss : ss = true
    · simp only [hss, Bool.true_and]
      exact hsemi hss
    · rw [Bool.not_eq_true] at hss
      simp [hss]
  simp only [procLine, pstrip_eq_self hh hl, hemp, Bool.false_eq_true, if_false, hcond]

theorem normBody_fix (ss : Bool) (step : Nat) :
    ∀ (ls : List (List Char)) (n : Nat), (∀ l ∈ ls, goodLine ss l) →
      normBody ss step n ls = (ls.map (fun l => (l, (none : Option Nat))), n) := by
  intro ls
  induction ls with
  | nil => intro n _; rfl
  | cons l rest ih =>
    intro n hg
    have h1 : procLine ss l = some l := procLine_good (hg l (by simp))
    have h2 : hasBlockNum l = true := (hg l (by simp)).2.2.2.1
    simp [normBody, h1, h2, ih n fun x hx => hg x (by simp [hx])]

theorem normalizeLines_noStop (cfg : NormCfg) (h : cfg.ensure_M02 = false)
    (src : List (List Char)) :
    normalizeLines cfg src = hdrOut cfg ++
      (normBody cfg.strip_semicolon cfg.step cfg.start_n (preSrc cfg src)).1 := by
  simp only [normalizeLines, h, Bool.false_eq_true, if_false]

/-- C1 (amended): with stop-code enforcement disabled, normalization is
idempotent — re-normalizing its own output (same configuration) yields
byte-identical output.  (With enforcement enabled a second run rewrites
the appended stop line's block number, since the counter restarts and
already-numbered lines do not advance it.) -/
theorem C1_normalize_idem (cfg : NormCfg) (h : cfg.ensure_M02 = false)
    (t : List Char) :
    normalizeText cfg (normalizeText cfg t) = normalizeText cfg t := by
  set B := (normBody cfg.strip_semicolon cfg.step cfg.start_n
    (preSrc cfg (splitlines t))).1 with hB
  have hgood : ∀ p ∈ B, goodLine cfg.strip_semicolon p.1 :=
    normBody_good _ _ _ _ fun l hl => splitlines_lbFree t l (preSrc_subset _ _ l hl)
  have hout : normLines cfg (splitlines t) =
      (hdrOut cfg).map Prod.fst ++ B.map Prod.fst := by
    unfold normLines
    rw [normalizeLines_noStop cfg h, List.map_append]
  by_cases hemp : normLines cfg (splitlines t) = []
  · have hap : cfg.add_percent = false := by
      by_contra hap'
      rw [Bool.not_eq_false] at hap'
      rw [hout] at hemp
      simp [hdrOut, hap'] at hemp
    have ht1 : normalizeText cfg t = eolStr cfg := by
      show serializeLines cfg (normLines cfg (splitlines t)) = eolStr cfg
      rw [hemp]
      rfl
    rw [ht1]
    have hsp : splitlines (eolStr cfg) = [[]] := by
      unfold eolStr
      by_cases hc : cfg.crlf = true
      · rw [if_pos hc]; rfl
      · rw [if_neg hc]; rfl
    show serializeLines cfg (normLines cfg (splitlines (eolStr cfg))) = eolStr cfg
    rw [hsp]
    have hnl : normLines cfg [[]] = [] := by
      unfold normLines
      rw [normalizeLines_noStop cfg h]
      rw [show preSrc cfg [[]] = [[]] from by simp [preSrc, hap]]
      rw [show normBody cfg.strip_semicolon cfg.step cfg.start_n [[]] =
          ([], cfg.start_n) from by
        simp [normBody, show procLine cfg.strip_semicolon [] = none from rfl]]
      simp [hdrOut, hap]
    rw [hnl]
    rfl
  · have hlbout : ∀ l ∈ normLines cfg (splitlines t), lbFreeL l := by
      intro l hl
      rw [hout] at hl
      rcases List.mem_append.mp hl with h1 | h2
      · unfold hdrOut at h1
        by_cases hap : cfg.add_percent = true
        · rw [if_pos hap] at h1
          simp only [List.map_cons, List.map_nil, List.mem_singleton] at h1
          rw [h1]
          intro c hc
          rw [List.mem_singleton.mp hc]
          decide
        · rw [if_neg hap] at h1; simp at h1
      · obtain ⟨p, hp, rfl⟩ := List.mem_map.mp h2
        exact (hgood p hp).2.2.2.2.2
    have heol : eolStr cfg = ['\r', '\n'] ∨ eolStr cfg = ['\n'] := by
      unfold eolStr
      by_cases hc : cfg.crlf = true
      · rw [if_pos hc]; exact Or.inl rfl
      · rw [if_neg hc]; exact Or.inr rfl
    have hsplit : splitlines (normalizeText cfg t) = normLines cfg (splitlines t) := by
      show splitlines (serializeLines cfg (normLines cfg (splitlines t))) = _
      unfold serializeLines
      exact splitlines_join (eolStr cfg) heol _ hemp hlbout
    show serializeLines cfg (normLines cfg (splitlines (normalizeText cfg t))) = _
    rw [hsplit]
    have hgoodmap : ∀ l ∈ B.map Prod.fst, goodLine cfg.strip_semicolon l := by
      intro l hl
      obtain ⟨p, hp, rfl⟩ := List.mem_map.mp hl
      exact hgood p hp
    suffices hfix : normLines cfg (normLines cfg (splitlines t)) =
        normLines cfg (splitlines t) by
      rw [hfix]
      rfl
    by_cases hap : cfg.add_percent = true
    · have hform : normLines cfg (splitlines t) = ['%'] :: B.map Prod.fst := by
        rw [hout]
        simp [hdrOut, hap]
      rw [hform]
      unfold normLines
      rw [normalizeLines_noStop cfg h]
      rw [show preSrc cfg (['%'] :: B.map Prod.fst) = B.map Prod.fst from by
        simp [preSrc, hap, show pstrip ['%'] = ['%'] from rfl]]
      rw [normBody_fix _ _ _ _ hgoodmap]
      simp [hdrOut, hap, List.map_map]
    · have hform : normLines cfg (splitlines t) = B.map Prod.fst := by
        rw [hout]
        simp [hdrOut, hap]
      rw [hform]
      unfold normLines
      rw [normalizeLines_noStop cfg h]
      rw [show preSrc cfg (B.map Prod.fst) = B.map Prod.fst from by
        simp [preSrc, hap]]
      rw [normBody_fix _ _ _ _ hgoodmap]
      simp [hdrOut, hap, List.map_map]

/-- C1 (counterexample): with the default configuration (stop-code
enforcement on), normalizing the already-normalized output of input
`"G01"` is not byte-identical: the first run emits
`%␍␊N10 G01␍␊N20 M02␍␊`, but the second run emits
`%␍␊N10 G01␍␊N10 M02␍␊` — the counter restarts at 10 and the
already-numbered body line does not advance it, so the rebuilt stop
line's block number changes. -/
theorem C1_counterexample :
    normalizeText defCfg (normalizeText defCfg "G01".data) ≠
      normalizeText defCfg "G01".data := by
  decide

/-- Witness for C1 at a concrete stop-code-free configuration and input. -/
theorem C1_witness :
    normalizeText cfgNoStop (normalizeText cfgNoStop "G01".data) =
      normalizeText cfgNoStop "G01".data :=
  C1_normalize_idem cfgNoStop rfl "G01".data
